import Mathlib

/-!
Verification development for the ike-go content ingestion pipeline.

The Go sources are shallowly embedded as Lean definitions:

* pointer-typed nullable fields become `Option`;
* the BPE tokenizer codec is abstracted as a pair of functions
  `enc : String → List Nat` and `dec : List Nat → String` (the chunker
  treats the codec as a black box);
* `uuid.New().String()` calls are modelled by an identifier supply
  `ids : Nat → String`, one index per call site occurrence;
* Go `(value, error)` returns become `Except` (or explicit pairs where a
  function can return both a value and an error).
-/

namespace IkeGo

/-- Embeds `models.Chunk` (Go struct `Chunk`, part of the data model).
Pointer fields are `Option`; `[]byte` length bookkeeping uses `Nat`. -/
structure Chunk where
  id : String := ""
  documentID : String := ""
  parentChunkID : Option String := none
  leftChunkID : Option String := none
  rightChunkID : Option String := none
  body : Option String := none
  byteSize : Option Nat := none
  tokenizer : Option String := none
  tokenCount : Option Nat := none
  naturalLang : Option String := none
  codeLang : Option String := none
  deriving DecidableEq, Repr

/-- Errors raised by `TokenChunker.ChunkDocument` (token.go). -/
inductive ChunkErr where
  | contentEmpty
  | invalidMaxTokens
  deriving DecidableEq, Repr

/-- Embeds the Go statement `chunks[len(chunks)-1].RightChunkID = &chunkID`
guarded by `if len(chunks) > 0` (token.go, multi-chunk loop): sets the
right sibling pointer of the final list element, and does nothing on an
empty list. -/
def setLastRight (rid : String) : List Chunk → List Chunk
  | [] => []
  | [c] => [{ c with rightChunkID := some rid }]
  | c :: rest => c :: setLastRight rid rest

/-- Embeds the multi-chunk loop of `TokenChunker.ChunkDocument`
(token.go lines 96-130).  `m1 + 1` is `maxTokens` (passing the
predecessor keeps the window size positive by construction, matching the
guard `maxTokens > 0` established before the loop runs).  `toks` is the
remaining token array (`tokens[i:]`), `j` counts iterations (one fresh
identifier per iteration), `acc` is the `chunks` slice built so far and
`prev` is `previousChunkID`.  `fuel` bounds the number of iterations:
every iteration consumes at least one token, so the caller passes the
token count and the zero-fuel branch is never reached. -/
def chunkDocLoop (dec : List Nat → String) (ids : Nat → String) (m1 : Nat) :
    Nat → List Nat → Nat → List Chunk → Option String → List Chunk
  | _, [], _, acc, _ => acc
  | 0, _ :: _, _, acc, _ => acc
  | fuel + 1, t :: ts, j, acc, prev =>
    let window := (t :: ts).take (m1 + 1)
    let chunkText := dec window
    let cid := ids j
    let c : Chunk :=
      { id := cid
        body := some chunkText
        byteSize := some chunkText.utf8ByteSize
        tokenizer := some "cl100k_base"
        tokenCount := some window.length
        leftChunkID := prev }
    chunkDocLoop dec ids m1 fuel ((t :: ts).drop (m1 + 1)) (j + 1)
      (setLastRight cid acc ++ [c]) (some cid)

/-- Embeds `TokenChunker.ChunkDocument` (token.go lines 60-133).
`envTokenizer` stands for `getTokenizerFromEnv()` (the configured
tokenizer name); `maxTokens` is the Go `int` argument. -/
def ChunkDocument (enc : String → List Nat) (dec : List Nat → String)
    (envTokenizer : String) (ids : Nat → String)
    (content : String) (maxTokens : Int) : Except ChunkErr (List Chunk) :=
  if content = "" then .error .contentEmpty
  else if maxTokens ≤ 0 then .error .invalidMaxTokens
  else
    let tokens := enc content
    let totalTokens := tokens.length
    if (totalTokens : Int) ≤ maxTokens then
      .ok [{ id := ids 0
             body := some content
             byteSize := some content.utf8ByteSize
             tokenizer := some envTokenizer
             tokenCount := some totalTokens }]
    else
      .ok (chunkDocLoop dec ids (maxTokens.toNat - 1) totalTokens tokens 0 [] none)

/-- Embeds `models.Source` (Go struct `Source`).  Timestamps are carried
as RFC3339 strings, which is how the engine reads and writes them. -/
structure Source where
  id : String := ""
  authorEmail : Option String := none
  rawURL : Option String := none
  scheme : Option String := none
  host : Option String := none
  path : Option String := none
  query : Option String := none
  activeDomain : Int := 0
  format : Option String := none
  createdAt : String := ""
  updatedAt : String := ""
  deriving DecidableEq, Repr

/-- Errors surfaced by the processing engine (engine error variables in
services).  `embeddingGenerationFailed` wraps the embedder error message
(`fmt.Errorf("embedding generation failed: %w", err)`), `saveFailed`
wraps a store error from `saveChunkAndEmbedding`. -/
inductive EngineErr where
  | cannotDetermineSourceType
  | chunkProcessingFailed
  | unsupportedEmbeddingDim
  | embeddingGenerationFailed (msg : String)
  | saveFailed (msg : String)
  deriving DecidableEq, Repr

/-- Embeds `ProcessingEngine.determineSourceTypeFromSource` (services).
The Go method only reads `source.Host`; `source.RawURL` is consulted for
logging alone. -/
def determineSourceTypeFromSource (source : Source) : Except EngineErr String :=
  match source.host with
  | some host =>
    if host = "github.com" ∨ host = "api.github.com" then .ok "github"
    else .ok "wp-json"
  | none => .error .cannotDetermineSourceType

/-- Embeds `models.Embedding`.  The engine never inspects individual
vector entries, so the `[]float32` payload is abstracted as `List Int`
(`none` models a nil slice). -/
structure EmbeddingRec where
  id : String := ""
  embedding1536 : Option (List Int) := none
  embedding3072 : Option (List Int) := none
  embedding768 : Option (List Int) := none
  model : Option String := none
  objectID : String := ""
  objectType : String := ""
  deriving DecidableEq, Repr

/-- Abstracts the `interfaces.Embedder` collaborator as consumed by the
chunk worker: `generate` models `GenerateEmbedding` (error payload is
the message), `modelName` models `GetModelName`, `dimension` models
`GetDimension`. -/
structure EmbedderM where
  generate : String → Except String (List Int)
  modelName : String
  dimension : Int

/-- Embeds `interfaces.ChunkResult`. -/
structure ChunkResult where
  chunk : Chunk
  embedding : Option EmbeddingRec := none
  error : Option EngineErr := none
  deriving DecidableEq, Repr

/-- Embeds the per-chunk body of `ProcessingEngine.chunkWorker`
(services).  `save` abstracts `saveChunkAndEmbedding` (a store write
that can fail); `newChunkID` and `newEmbID` stand for the two
`uuid.New().String()` calls.  The worker overwrites the chunk id and
document id, generates an embedding when the body is non-nil, selects
the vector slot from the declared dimension, and saves chunk plus
embedding; errors are carried on the emitted result. -/
def chunkWorkerStep (emb : EmbedderM)
    (save : Chunk → Option EmbeddingRec → Option EngineErr)
    (documentID newChunkID newEmbID : String) (c0 : Chunk) : ChunkResult :=
  let c : Chunk := { c0 with documentID := documentID, id := newChunkID }
  match c.body with
  | none =>
    match save c none with
    | some e => { chunk := c, error := some e }
    | none => { chunk := c }
  | some body =>
    match emb.generate body with
    | .error msg => { chunk := c, error := some (.embeddingGenerationFailed msg) }
    | .ok vec =>
      let e0 : EmbeddingRec :=
        { id := newEmbID, model := some emb.modelName
          objectID := c.id, objectType := "chunk" }
      if emb.dimension = 768 then
        let e1 := { e0 with embedding768 := some vec }
        match save c (some e1) with
        | some e => { chunk := c, embedding := some e1, error := some e }
        | none => { chunk := c, embedding := some e1 }
      else if emb.dimension = 1536 then
        let e1 := { e0 with embedding1536 := some vec }
        match save c (some e1) with
        | some e => { chunk := c, embedding := some e1, error := some e }
        | none => { chunk := c, embedding := some e1 }
      else if emb.dimension = 3072 then
        let e1 := { e0 with embedding3072 := some vec }
        match save c (some e1) with
        | some e => { chunk := c, embedding := some e1, error := some e }
        | none => { chunk := c, embedding := some e1 }
      else
        { chunk := c, embedding := some e0, error := some .unsupportedEmbeddingDim }

/-- Runs `chunkWorkerStep` over a chunk list.  This is the aggregate of
the worker pool of `processChunks`: with at least one worker every job
is consumed exactly once and yields exactly one result; the result
multiset is independent of how jobs are interleaved across workers, and
is modelled here in job order.  `chunkIds k` and `embIds k` are the
fresh identifiers drawn while processing the chunk at position `k`. -/
def runWorkers (emb : EmbedderM)
    (save : Chunk → Option EmbeddingRec → Option EngineErr)
    (documentID : String) (chunkIds embIds : Nat → String) :
    Nat → List Chunk → List ChunkResult
  | _, [] => []
  | k, c :: rest =>
    chunkWorkerStep emb save documentID (chunkIds k) (embIds k) c ::
      runWorkers emb save documentID chunkIds embIds (k + 1) rest

/-- Embeds `ProcessingEngine.processChunks` (services).  The job and
result channels are buffered to `len(chunks)`; the collector reads
exactly `len(chunks)` results.  With `concurrency ≤ 0` and a non-empty
chunk list no worker ever emits a result and the collector blocks
forever: that divergence is modelled by `none`. -/
def processChunks (emb : EmbedderM)
    (save : Chunk → Option EmbeddingRec → Option EngineErr)
    (documentID : String) (chunkIds embIds : Nat → String)
    (concurrency : Int) (chunks : List Chunk) :
    Option (Except EngineErr Unit) :=
  if 0 < chunks.length ∧ concurrency ≤ 0 then none
  else
    let results := runWorkers emb save documentID chunkIds embIds 0 chunks
    let errorsList := results.filterMap (fun r => r.error)
    some (if 0 < errorsList.length then .error .chunkProcessingFailed else .ok ())

/-- Errors of the WordPress JSON importer (wpjson importer error
variables).  `decodeFailed` carries the JSON decoder message;
`allImportsFailed` models `fmt.Errorf("all imports failed, first error: %w", ...)`. -/
inductive WPErr where
  | decodeFailed (msg : String)
  | importCompleted
  | noPostsImported
  | allImportsFailed
  | unexpectedPostStatusCode
  deriving DecidableEq, Repr

instance {α β : Type} [DecidableEq α] [DecidableEq β] : DecidableEq (Except α β) := by
  intro a b
  cases a with
  | error ea =>
    cases b with
    | error eb =>
      exact if h : ea = eb then .isTrue (by rw [h]) else .isFalse (by simp [h])
    | ok vb => exact .isFalse (by simp)
  | ok va =>
    cases b with
    | error eb => exact .isFalse (by simp)
    | ok vb =>
      exact if h : va = vb then .isTrue (by rw [h]) else .isFalse (by simp [h])

/-- Models one page response observed by `WPJSONImporter.getPostIDs`:
the HTTP status and the JSON decode outcome of the body.  Each decoded
post is reduced to its numeric `id` field when present (`post["id"].(float64)`),
since that is all the enumeration reads.  Transport-level failures
(request creation, client errors) abort enumeration before any status
is observed and are outside the scope of the status-handling claims. -/
structure WPPage where
  status : Nat
  body : Except String (List (Option Int))
  deriving DecidableEq, Repr

/-- Safety bound on pages (`maxPages` constant, wpjson importer). -/
def wpMaxPages : Nat := 1000

/-- Embeds the page loop of `WPJSONImporter.getPostIDs` (wpjson importer
lines 157-209).  `fuel` is the number of pages the guard
`page <= w.maxPages` still admits.  Branches in source order: a 400
status breaks out returning the ids collected so far; any other non-OK
status executes `return nil, err` — and at that point the local `err`
is provably nil (the preceding `w.client.Do` succeeded), so the Go
function returns a nil slice with a nil error; a decode failure is
returned; an empty page breaks; otherwise the numeric ids are appended
and the loop advances. -/
def getPostIDsLoop (pages : Nat → WPPage) :
    Nat → Nat → List Int → Except WPErr (List Int)
  | 0, _, acc => .ok acc
  | fuel + 1, page, acc =>
    let p := pages page
    if p.status = 400 then .ok acc
    else if p.status ≠ 200 then .ok []
    else
      match p.body with
      | .error msg => .error (.decodeFailed msg)
      | .ok posts =>
        if posts.isEmpty then .ok acc
        else
          getPostIDsLoop pages fuel (page + 1)
            (acc ++ posts.filterMap (fun x => x))

/-- Embeds `WPJSONImporter.getPostIDs`: pages are requested starting at
page 1 under the `maxPages` safety bound. -/
def getPostIDs (pages : Nat → WPPage) : Except WPErr (List Int) :=
  getPostIDsLoop pages wpMaxPages 1 []

/-- Embeds `interfaces.ImportResult` as produced by `importPost`
(failures are carried in the `error` field). -/
structure WPImportResult where
  sourceID : String := ""
  downloadID : String := ""
  error : Option WPErr := none
  deriving DecidableEq, Repr

/-- Embeds the result-collection loop of `WPJSONImporter.Import`:
results carrying an error are appended to `errorsList`, others replace
`lastResult`. -/
def collectWP (rs : List WPImportResult) :
    List WPErr × Option WPImportResult :=
  rs.foldl
    (fun acc r =>
      match r.error with
      | some e => (acc.1 ++ [e], acc.2)
      | none => (acc.1, some r))
    ([], none)

/-- Embeds the tail of `WPJSONImporter.Import` after all per-post
results are collected: with errors and a surviving success the last
success is returned with the `ErrWPImportCompleted` marker attached;
with errors and no success the wrapped first error is returned; with no
errors the last success is returned, and `ErrNoPostsImported` when
there is none.  The pair mirrors the Go `(*ImportResult, error)`. -/
def wpImportFinish (rs : List WPImportResult) :
    Option WPImportResult × Option WPErr :=
  let (errs, last) := collectWP rs
  if 0 < errs.length then
    match last with
    | some r => (some { r with error := some .importCompleted }, none)
    | none => (none, some .allImportsFailed)
  else
    match last with
    | some r => (some r, none)
    | none => (none, some .noPostsImported)

/-- Embeds `WPJSONImporter.Import` from post-id enumeration onward
(validation of the URL precedes and is orthogonal).  `post` abstracts
`importPost` for each id; posts are fetched concurrently under a
semaphore, and the collected outcome multiset is modelled in id
order. -/
def wpImport (pages : Nat → WPPage) (post : Int → WPImportResult) :
    Option WPImportResult × Option WPErr :=
  match getPostIDs pages with
  | .error e => (none, some e)
  | .ok ids => wpImportFinish (ids.map post)

/-- Errors of the GitHub importer (github.go error variables). -/
inductive GHErr where
  | importCompleted
  | noFilesImported
  | fileImportFailed (msg : String)
  deriving DecidableEq, Repr

/-- Embeds `interfaces.ImportResult` as returned by
`GitHubImporter.importFile` on success; the attached marker error is
set by `Import` itself. -/
structure GHImportResult where
  sourceID : String := ""
  downloadID : String := ""
  error : Option GHErr := none
  deriving DecidableEq, Repr

/-- Embeds the per-file loop of `GitHubImporter.Import` (github.go lines
193-204): `importFile` errors are appended to `errorsList`, successes
replace `lastResult`. -/
def ghCollect (outcomes : List (Except GHErr GHImportResult)) :
    List GHErr × Option GHImportResult :=
  outcomes.foldl
    (fun acc o =>
      match o with
      | .error e => (acc.1 ++ [e], acc.2)
      | .ok r => (acc.1, some r))
    ([], none)

/-- Embeds the tail of `GitHubImporter.Import` (github.go lines
206-228).  When `errorsList` is non-empty and `lastResult` is nil the
source executes `return nil, err`; the `err` in scope there is the one
last assigned by `g.getRepoTree`, which is provably nil on this path
(a non-nil tree error returns earlier), so the Go function returns a
nil result with a nil error.  With a surviving `lastResult` its `Error`
field is set to `ErrImportCompleted` and it is returned with a nil
error; with no errors and no result `ErrNoFilesImported` is returned. -/
def ghImportFinish (outcomes : List (Except GHErr GHImportResult)) :
    Option GHImportResult × Option GHErr :=
  let (errs, last) := ghCollect outcomes
  if 0 < errs.length then
    match last with
    | some r => (some { r with error := some .importCompleted }, none)
    | none => (none, none)
  else
    match last with
    | some r => (some r, none)
    | none => (none, some .noFilesImported)

/-- Character-level substring containment, the counterpart of Go
`strings.Contains`.  On valid UTF-8 both sides, byte-level and
rune-level containment agree, UTF-8 being self-synchronizing. -/
def strContainsSub (s sub : String) : Bool :=
  (List.range (s.data.length + 1)).any
    (fun i => sub.data.isPrefixOf (s.data.drop i))

/-- Character-wise lower-casing, the counterpart of `strings.ToLower`
(they agree on ASCII letters; no claim input exercises non-ASCII case
folding). -/
def toLowerStr (s : String) : String := String.mk (s.data.map Char.toLower)

/-- Embeds the `frenchIndicators` literal shared verbatim by
`GitHubTransformer.detectNaturalLanguage` (transformers/github.go) and
`WPJSONTransformer.detectLanguage` (transformers/wpjson.go).  Note the
entry `"des "` appears twice, as in the source. -/
def frenchIndicators : List String :=
  ["le ", "la ", "les ", "un ", "une ", "des ",
   "et ", "ou ", "mais ", "donc ", "car ", "ni ",
   "que ", "qui ", "quoi ", "dont ", "où ",
   "avec ", "sans ", "pour ", "par ", "sur ",
   "dans ", "de ", "du ", "des ", "au ", "aux "]

/-- Embeds `GitHubTransformer.detectNaturalLanguage` (transformers/github.go
lines 378-406): lower-case the content, count the indicator list entries
contained in it (an entry listed twice counts twice), report "fr" when
the count reaches 3. -/
def detectNaturalLanguage (content : String) : String :=
  let lower := toLowerStr content
  let frenchCount :=
    frenchIndicators.foldl
      (fun n ind => if strContainsSub lower ind then n + 1 else n) 0
  if 3 ≤ frenchCount then "fr" else "en"

/-- Embeds `WPJSONTransformer.detectLanguage` (transformers/wpjson.go
lines 296-324); the body is identical to `detectNaturalLanguage`. -/
def detectLanguage (content : String) : String :=
  let lower := toLowerStr content
  let frenchCount :=
    frenchIndicators.foldl
      (fun n ind => if strContainsSub lower ind then n + 1 else n) 0
  if 3 ≤ frenchCount then "fr" else "en"

/-- Modelled from the spec: the indicator list the claim and spec
sentence 4.5.3 enumerate (17 entries, no duplicates). -/
def specFrenchIndicators : List String :=
  ["le ", "la ", "les ", "et ", "dans ", "avec ", "pour ", "par ",
   "sur ", "de ", "du ", "des ", "au ", "aux ", "que ", "qui ", "où "]

/-- Modelled from the spec: natural-language detection as the claim
states it — lower-case, count how many of the 17 listed indicators
occur, report "fr" exactly when at least 3 do. -/
def specDetectNaturalLanguage (content : String) : String :=
  let lower := toLowerStr content
  if 3 ≤ (specFrenchIndicators.filter (fun ind => strContainsSub lower ind)).length
  then "fr" else "en"

/-- Restates the source indicator count as a filter length, for the
amended form of the detection claim (the duplicated `"des "` entry
contributes twice to the fold, hence twice to this filter length). -/
def frenchIndicatorCount (content : String) : Nat :=
  (frenchIndicators.filter (fun ind => strContainsSub (toLowerStr content) ind)).length

/-! Concrete collaborators used to exercise the definitions on closed
inputs: a toy codec (one token per character) and a readable
identifier supply. -/

/-- Toy encoder: one token per character (code point). -/
def testEnc (s : String) : List Nat := s.data.map Char.toNat

/-- Toy decoder, inverse of `testEnc` on valid code points. -/
def testDec (l : List Nat) : String := String.mk (l.map Char.ofNat)

/-- Identifier supply used in concrete instantiations. -/
def testIds (n : Nat) : String := "id" ++ toString n

/-- The chunk list `ChunkDocument` produces for content "abcd" under the
toy codec with a window of 2 tokens. -/
def csTwo : List Chunk :=
  [{ id := "id0", body := some "ab", byteSize := some 2,
     tokenizer := some "cl100k_base", tokenCount := some 2,
     rightChunkID := some "id1" },
   { id := "id1", body := some "cd", byteSize := some 2,
     tokenizer := some "cl100k_base", tokenCount := some 2,
     leftChunkID := some "id0" }]

/-- Concrete embedder with a supported dimension, used in closed
instantiations. -/
def embOk : EmbedderM :=
  { generate := fun s => .ok [Int.ofNat s.length]
    modelName := "text-embedding-3-small"
    dimension := 1536 }

/-- Concrete embedder declaring the unsupported dimension 999. -/
def emb999 : EmbedderM :=
  { generate := fun _ => .ok [1]
    modelName := "bad-model"
    dimension := 999 }

/-- Store stub whose writes always succeed. -/
def saveOk : Chunk → Option EmbeddingRec → Option EngineErr := fun _ _ => none

/-- Concrete two-chunk input for the worker pool: one nil body, one
non-nil body. -/
def csC5 : List Chunk := [{ id := "a" }, { id := "b", body := some "x" }]

/-- Concrete one-chunk input with body "x" for the unsupported-dimension
scenario. -/
def csC6 : List Chunk := [{ id := "a", body := some "x" }]

/-- Injective identifier supply used in closed instantiations that need
freshness: index n maps to a run of n+1 letters. -/
def repIds (n : Nat) : String := String.mk (List.replicate (n + 1) 'i')

/-- The chunk list `ChunkDocument` produces for content "abcd" under the
toy codec, window 2, with the `repIds` supply. -/
def csRep : List Chunk :=
  [{ id := "i", body := some "ab", byteSize := some 2,
     tokenizer := some "cl100k_base", tokenCount := some 2,
     rightChunkID := some "ii" },
   { id := "ii", body := some "cd", byteSize := some 2,
     tokenizer := some "cl100k_base", tokenCount := some 2,
     leftChunkID := some "i" }]

/-- The page sequence of the spec scenario for paginated-import
termination, except that page 3 answers 500 instead of 400: page 1
carries posts 1, 2, 3; page 2 carries post 4; every later page answers
status 500. -/
def c8Pages : Nat → WPPage := fun n =>
  if n = 1 then { status := 200, body := .ok [some 1, some 2, some 3] }
  else if n = 2 then { status := 200, body := .ok [some 4] }
  else { status := 500, body := .ok [] }

/-- Page sequence exercising the three termination branches: page 1
answers 400, page 2 answers an empty OK page, later pages answer 500. -/
def c8WitnessPages : Nat → WPPage := fun n =>
  if n = 1 then { status := 400, body := .ok [] }
  else if n = 2 then { status := 200, body := .ok [] }
  else { status := 500, body := .ok [] }

/-- Per-post import stub that always succeeds. -/
def wpPostStub : Int → WPImportResult := fun _ => {}

/-- Sibling linkage along a chunk list: every adjacent pair is doubly
linked (the earlier right pointer names the later id, the later left
pointer names the earlier id). -/
def linked : List Chunk → Prop
  | [] => True
  | [_] => True
  | a :: b :: rest =>
    a.rightChunkID = some b.id ∧ b.leftChunkID = some a.id ∧ linked (b :: rest)

/-- All sibling references of a chunk are either absent or drawn from
the identifier supply below index `n`. -/
def idRefsBelow (ids : Nat → String) (n : Nat) (c : Chunk) : Prop :=
  (c.leftChunkID = none ∨ ∃ j, j < n ∧ c.leftChunkID = some (ids j)) ∧
  (c.rightChunkID = none ∨ ∃ j, j < n ∧ c.rightChunkID = some (ids j))

/-- The token count field, when set, is at most `n`. -/
def tokenCountLE (n : Nat) (c : Chunk) : Prop :=
  ∀ k, c.tokenCount = some k → k ≤ n

end IkeGo

namespace IkeGo

/-! Helper lemmas about `setLastRight` and the linkage predicates. -/

theorem setLastRight_cons_cons (rid : String) (x y : Chunk) (ys : List Chunk) :
    setLastRight rid (x :: y :: ys) = x :: setLastRight rid (y :: ys) := rfl

theorem setLastRight_length (rid : String) (l : List Chunk) :
    (setLastRight rid l).length = l.length := by
  induction l with
  | nil => rfl
  | cons x xs ih =>
    cases xs with
    | nil => rfl
    | cons y ys => simp [setLastRight_cons_cons, ih]

theorem setLastRight_ne_nil (rid : String) (x : Chunk) (xs : List Chunk) :
    setLastRight rid (x :: xs) ≠ [] := by
  intro h
  have := setLastRight_length rid (x :: xs)
  rw [h] at this
  simp at this

theorem mem_setLastRight (rid : String) (l : List Chunk) :
    ∀ c ∈ setLastRight rid l,
      c ∈ l ∨ ∃ d ∈ l, c = { d with rightChunkID := some rid } := by
  induction l with
  | nil => intro c hc; simp [setLastRight] at hc
  | cons x xs ih =>
    cases xs with
    | nil =>
      intro c hc
      simp only [setLastRight, List.mem_singleton] at hc
      exact Or.inr ⟨x, by simp, hc⟩
    | cons y ys =>
      intro c hc
      rw [setLastRight_cons_cons] at hc
      rcases List.mem_cons.mp hc with h | h
      · exact Or.inl (by simp [h])
      · rcases ih c h with h' | ⟨d, hd, hc'⟩
        · exact Or.inl (List.mem_cons_of_mem x h')
        · exact Or.inr ⟨d, List.mem_cons_of_mem x hd, hc'⟩

theorem head?_setLastRight (rid : String) (l : List Chunk) (a : Chunk)
    (h : l.head? = some a) :
    ∃ a', (setLastRight rid l).head? = some a' ∧
      a'.id = a.id ∧ a'.leftChunkID = a.leftChunkID := by
  cases l with
  | nil => simp at h
  | cons x xs =>
    have hx : a = x := by simpa using h.symm
    subst hx
    cases xs with
    | nil => exact ⟨{ a with rightChunkID := some rid }, rfl, rfl, rfl⟩
    | cons y ys => exact ⟨a, rfl, rfl, rfl⟩

theorem linked_cons (a : Chunk) (l : List Chunk) :
    linked (a :: l) ↔
      (∀ b, l.head? = some b →
        a.rightChunkID = some b.id ∧ b.leftChunkID = some a.id) ∧ linked l := by
  cases l with
  | nil => simp [linked]
  | cons b bs =>
    show linked (a :: b :: bs) ↔ _
    rw [linked]
    constructor
    · rintro ⟨h1, h2, h3⟩
      refine ⟨?_, h3⟩
      intro b' hb'
      have : b' = b := by simpa using hb'.symm
      subst this
      exact ⟨h1, h2⟩
    · rintro ⟨h1, h2⟩
      have := h1 b (by simp)
      exact ⟨this.1, this.2, h2⟩

theorem linked_setLastRight_concat (rid : String) (c : Chunk) (hcid : c.id = rid) :
    ∀ l : List Chunk, linked l →
      (∀ a, l.getLast? = some a → c.leftChunkID = some a.id) →
      linked (setLastRight rid l ++ [c]) := by
  subst hcid
  intro l
  induction l with
  | nil => intro _ _; simp [setLastRight, linked]
  | cons x xs ih =>
    intro hl hleft
    cases xs with
    | nil =>
      have hcx := hleft x (by simp)
      rw [show setLastRight c.id [x] ++ [c] =
        [{ x with rightChunkID := some c.id }, c] from rfl]
      rw [linked_cons]
      refine ⟨?_, trivial⟩
      intro b hb
      have hbc : b = c := by simpa using hb.symm
      subst hbc
      exact ⟨rfl, hcx⟩
    | cons y ys =>
      obtain ⟨hxy, hyx, hrest⟩ := (by rw [linked] at hl; exact hl :
        x.rightChunkID = some y.id ∧ y.leftChunkID = some x.id ∧ linked (y :: ys))
      have ihres := ih hrest (fun a ha => hleft a (by simpa using ha))
      rw [setLastRight_cons_cons, List.cons_append, linked_cons]
      refine ⟨?_, ihres⟩
      intro b hb
      obtain ⟨y', hy', hid, hlf⟩ := head?_setLastRight c.id (y :: ys) y (by simp)
      have hhead : (setLastRight c.id (y :: ys) ++ [c]).head? = some y' := by
        cases hsl : setLastRight c.id (y :: ys) with
        | nil => exact absurd hsl (setLastRight_ne_nil c.id y ys)
        | cons z zs => rw [hsl] at hy'; simpa using hy'
      rw [hhead] at hb
      have : b = y' := by simpa using hb.symm
      subst this
      constructor
      · rw [hid]; exact hxy
      · rw [hlf]; exact hyx

theorem linked_get? (l : List Chunk) (hl : linked l) :
    ∀ i a b, l.get? i = some a → l.get? (i + 1) = some b →
      a.rightChunkID = some b.id ∧ b.leftChunkID = some a.id := by
  induction l with
  | nil => intro i a b ha _; simp at ha
  | cons x xs ih =>
    intro i a b ha hb
    cases xs with
    | nil =>
      cases i with
      | zero => simp at hb
      | succ n => simp at ha
    | cons y ys =>
      obtain ⟨h1, h2, h3⟩ := (by rw [linked] at hl; exact hl :
        x.rightChunkID = some y.id ∧ y.leftChunkID = some x.id ∧ linked (y :: ys))
      cases i with
      | zero =>
        have hax : a = x := by simpa using ha.symm
        have hby : b = y := by simpa using hb.symm
        subst hax; subst hby
        exact ⟨h1, h2⟩
      | succ n =>
        exact ih h3 n a b (by simpa using ha) (by simpa using hb)

theorem idRefsBelow_mono (ids : Nat → String) {n m : Nat} (hnm : n ≤ m)
    (c : Chunk) (h : idRefsBelow ids n c) : idRefsBelow ids m c := by
  obtain ⟨hL, hR⟩ := h
  constructor
  · rcases hL with h | ⟨j, hj, h⟩
    · exact Or.inl h
    · exact Or.inr ⟨j, lt_of_lt_of_le hj hnm, h⟩
  · rcases hR with h | ⟨j, hj, h⟩
    · exact Or.inl h
    · exact Or.inr ⟨j, lt_of_lt_of_le hj hnm, h⟩

/-! Invariant lemmas for the multi-chunk loop. -/

theorem chunkDocLoop_tokenCount (dec : List Nat → String) (ids : Nat → String)
    (m1 : Nat) :
    ∀ (fuel : Nat) (toks : List Nat) (j : Nat) (acc : List Chunk)
      (prev : Option String),
      (∀ c ∈ acc, tokenCountLE (m1 + 1) c) →
      ∀ c ∈ chunkDocLoop dec ids m1 fuel toks j acc prev,
        tokenCountLE (m1 + 1) c := by
  intro fuel
  induction fuel with
  | zero =>
    intro toks j acc prev hacc c hc
    cases toks with
    | nil => exact hacc c hc
    | cons t ts => exact hacc c hc
  | succ n ih =>
    intro toks j acc prev hacc c hc
    cases toks with
    | nil => exact hacc c hc
    | cons t ts =>
      rw [chunkDocLoop] at hc
      refine ih _ _ _ _ ?_ c hc
      intro d hd
      rcases List.mem_append.mp hd with hd | hd
      · rcases mem_setLastRight _ _ d hd with hd' | ⟨e, he, hde⟩
        · exact hacc d hd'
        · intro k hk
          rw [hde] at hk
          exact hacc e he k hk
      · have hdc : d = _ := List.mem_singleton.mp hd
        intro k hk
        rw [hdc] at hk
        simp only at hk
        have : k = ((t :: ts).take (m1 + 1)).length := by
          injection hk with h; exact h.symm
        rw [this, List.length_take]
        omega

theorem chunkDocLoop_linked (dec : List Nat → String) (ids : Nat → String)
    (m1 : Nat) :
    ∀ (fuel : Nat) (toks : List Nat) (j : Nat) (acc : List Chunk)
      (prev : Option String),
      linked acc →
      (acc = [] → prev = none) →
      (∀ a, acc.getLast? = some a → prev = some a.id ∧ a.rightChunkID = none) →
      (∀ a, acc.head? = some a → a.leftChunkID = none) →
      linked (chunkDocLoop dec ids m1 fuel toks j acc prev) ∧
      (∀ a, (chunkDocLoop dec ids m1 fuel toks j acc prev).head? = some a →
        a.leftChunkID = none) ∧
      (∀ a, (chunkDocLoop dec ids m1 fuel toks j acc prev).getLast? = some a →
        a.rightChunkID = none) := by
  intro fuel
  induction fuel with
  | zero =>
    intro toks j acc prev hlk _ hlast hhead
    cases toks with
    | nil => exact ⟨hlk, hhead, fun a ha => (hlast a ha).2⟩
    | cons t ts => exact ⟨hlk, hhead, fun a ha => (hlast a ha).2⟩
  | succ n ih =>
    intro toks j acc prev hlk hemp hlast hhead
    cases toks with
    | nil => exact ⟨hlk, hhead, fun a ha => (hlast a ha).2⟩
    | cons t ts =>
      rw [chunkDocLoop]
      apply ih
      · -- the extended accumulator is linked
        apply linked_setLastRight_concat (ids j) _ rfl _ hlk
        intro a ha
        exact (hlast a ha).1
      · -- the extended accumulator is non-empty
        intro h
        exact absurd h (by simp)
      · -- its final element is the fresh chunk: right pointer unset
        intro a ha
        rw [List.getLast?_concat] at ha
        injection ha with h
        rw [← h]
        exact ⟨rfl, rfl⟩
      · -- its head keeps a clear left pointer
        intro a ha
        cases hacc : acc with
        | nil =>
          rw [hacc] at ha
          simp only [setLastRight, List.nil_append, List.head?_cons] at ha
          injection ha with h
          rw [← h]
          exact hemp hacc
        | cons x xs =>
          have hx : acc.head? = some x := by rw [hacc]; rfl
          obtain ⟨x', hx', hid, hlf⟩ := head?_setLastRight (ids j) acc x hx
          have hne : setLastRight (ids j) acc ≠ [] := by
            rw [hacc]; exact setLastRight_ne_nil _ x xs
          rw [List.head?_append_of_ne_nil _ hne, hx'] at ha
          have hax' : a = x' := Option.some.inj ha.symm
          rw [hax', hlf]
          exact hhead x hx

theorem chunkDocLoop_idRefs (dec : List Nat → String) (ids : Nat → String)
    (m1 : Nat) :
    ∀ (fuel : Nat) (toks : List Nat), toks.length ≤ fuel →
      ∀ (j : Nat) (acc : List Chunk) (prev : Option String),
      acc.length = j →
      (∀ c ∈ acc, idRefsBelow ids j c) →
      (prev = none ∨ ∃ jj, jj < j ∧ prev = some (ids jj)) →
      ∀ c ∈ chunkDocLoop dec ids m1 fuel toks j acc prev,
        idRefsBelow ids (chunkDocLoop dec ids m1 fuel toks j acc prev).length c := by
  intro fuel
  induction fuel with
  | zero =>
    intro toks hlen j acc prev hj hacc _ c hc
    cases toks with
    | nil =>
      show idRefsBelow ids acc.length c
      rw [hj]
      exact hacc c hc
    | cons t ts => simp at hlen
  | succ n ih =>
    intro toks hlen j acc prev hj hacc hprev c hc
    cases toks with
    | nil =>
      show idRefsBelow ids acc.length c
      rw [hj]
      exact hacc c hc
    | cons t ts =>
      rw [chunkDocLoop] at hc ⊢
      refine ih _ ?_ _ _ _ ?_ ?_ ?_ c hc
      · -- fuel still bounds the remaining tokens
        rw [List.length_drop]
        simp only [List.length_cons] at hlen ⊢
        omega
      · -- the accumulator length tracks the counter
        rw [List.length_append, setLastRight_length, hj]
        rfl
      · -- all accumulated chunks reference identifiers below the counter
        intro d hd
        rcases List.mem_append.mp hd with hd | hd
        · rcases mem_setLastRight _ _ d hd with hd' | ⟨e, he, hde⟩
          · exact idRefsBelow_mono ids (Nat.le_succ j) d (hacc d hd')
          · obtain ⟨heL, _⟩ := hacc e he
            rw [hde]
            refine ⟨?_, Or.inr ⟨j, Nat.lt_succ_self j, rfl⟩⟩
            rcases heL with h | ⟨jj, hjj, h⟩
            · exact Or.inl h
            · exact Or.inr ⟨jj, Nat.lt_succ_of_lt hjj, h⟩
        · have hdc : d = _ := List.mem_singleton.mp hd
          rw [hdc]
          constructor
          · rcases hprev with h | ⟨jj, hjj, h⟩
            · exact Or.inl h
            · exact Or.inr ⟨jj, Nat.lt_succ_of_lt hjj, h⟩
          · exact Or.inl rfl
      · -- the new previous identifier is below the bumped counter
        exact Or.inr ⟨j, Nat.lt_succ_self j, rfl⟩

/-- Unfolding of `ChunkDocument` once the two validation guards pass. -/
theorem ChunkDocument_eq (enc : String → List Nat) (dec : List Nat → String)
    (tkz : String) (ids : Nat → String) (content : String) (maxTokens : Int)
    (hc : content ≠ "") (hN : 0 < maxTokens) :
    ChunkDocument enc dec tkz ids content maxTokens =
      if ((enc content).length : Int) ≤ maxTokens then
        .ok [{ id := ids 0
               body := some content
               byteSize := some content.utf8ByteSize
               tokenizer := some tkz
               tokenCount := some (enc content).length }]
      else
        .ok (chunkDocLoop dec ids (maxTokens.toNat - 1) (enc content).length
          (enc content) 0 [] none) := by
  unfold ChunkDocument
  rw [if_neg hc, if_neg (by omega : ¬ maxTokens ≤ 0)]

/-- Whenever `ChunkDocument` succeeds, the guards necessarily passed. -/
theorem ChunkDocument_ok_guards (enc : String → List Nat) (dec : List Nat → String)
    (tkz : String) (ids : Nat → String) (content : String) (maxTokens : Int)
    (cs : List Chunk)
    (hok : ChunkDocument enc dec tkz ids content maxTokens = .ok cs) :
    content ≠ "" ∧ 0 < maxTokens := by
  constructor
  · intro h
    rw [ChunkDocument, if_pos h] at hok
    exact Except.noConfusion hok
  · by_contra h
    have h' : maxTokens ≤ 0 := by omega
    by_cases hce : content = ""
    · rw [ChunkDocument, if_pos hce] at hok
      exact Except.noConfusion hok
    · rw [ChunkDocument, if_neg hce, if_pos h'] at hok
      exact Except.noConfusion hok

/-- C1: for every non-empty content string and every maxTokens N > 0,
every chunk in the sequence returned by `TokenChunker.ChunkDocument`
carries a token count that is at most N. -/
theorem claim_C1_chunk_token_bound (enc : String → List Nat)
    (dec : List Nat → String) (tkz : String) (ids : Nat → String)
    (content : String) (maxTokens : Int) (cs : List Chunk)
    (hc : content ≠ "") (hN : 0 < maxTokens)
    (hok : ChunkDocument enc dec tkz ids content maxTokens = .ok cs) :
    ∀ c ∈ cs, ∀ k, c.tokenCount = some k → (k : Int) ≤ maxTokens := by
  rw [ChunkDocument_eq enc dec tkz ids content maxTokens hc hN] at hok
  by_cases hfits : ((enc content).length : Int) ≤ maxTokens
  · rw [if_pos hfits] at hok
    injection hok with h
    rw [← h]
    intro c hcm k hk
    have hcc : c = _ := List.mem_singleton.mp hcm
    rw [hcc] at hk
    simp only at hk
    injection hk with h2
    rw [← h2]
    exact hfits
  · rw [if_neg hfits] at hok
    injection hok with h
    rw [← h]
    intro c hcm k hk
    have hbound := chunkDocLoop_tokenCount dec ids (maxTokens.toNat - 1)
      (enc content).length (enc content) 0 [] none
      (by intro d hd; exact absurd hd (List.not_mem_nil d)) c hcm k hk
    omega

/-- C2: every chunk sequence returned by `TokenChunker.ChunkDocument` is
doubly linked: each earlier chunk names the next id as its right
sibling, each later chunk names the previous id as its left sibling,
the first chunk has no left sibling and the last has no right
sibling. -/
theorem claim_C2_chunk_linkage (enc : String → List Nat)
    (dec : List Nat → String) (tkz : String) (ids : Nat → String)
    (content : String) (maxTokens : Int) (cs : List Chunk)
    (hok : ChunkDocument enc dec tkz ids content maxTokens = .ok cs) :
    (∀ i a b, cs.get? i = some a → cs.get? (i + 1) = some b →
      a.rightChunkID = some b.id ∧ b.leftChunkID = some a.id) ∧
    (∀ a, cs.head? = some a → a.leftChunkID = none) ∧
    (∀ a, cs.getLast? = some a → a.rightChunkID = none) := by
  obtain ⟨hc, hN⟩ := ChunkDocument_ok_guards enc dec tkz ids content maxTokens cs hok
  rw [ChunkDocument_eq enc dec tkz ids content maxTokens hc hN] at hok
  by_cases hfits : ((enc content).length : Int) ≤ maxTokens
  · rw [if_pos hfits] at hok
    injection hok with h
    rw [← h]
    refine ⟨?_, ?_, ?_⟩
    · intro i a b _ hb
      cases i with
      | zero => simp at hb
      | succ n => simp at hb
    · intro a ha
      injection ha with h2
      rw [← h2]
    · intro a ha
      rw [List.getLast?_singleton] at ha
      injection ha with h2
      rw [← h2]
  · rw [if_neg hfits] at hok
    injection hok with h
    rw [← h]
    obtain ⟨hl, hh, hr⟩ := chunkDocLoop_linked dec ids (maxTokens.toNat - 1)
      (enc content).length (enc content) 0 [] none
      trivial (fun _ => rfl)
      (fun a ha => absurd ha (by simp))
      (fun a ha => absurd ha (by simp))
    exact ⟨linked_get? _ hl, hh, hr⟩

/-- C4: when the encoded content fits in `maxTokens`, `ChunkDocument`
returns exactly one chunk whose body is the original content
byte-for-byte, whose token count is the encoded token count, whose byte
size is the UTF-8 byte length, tagged with the configured tokenizer,
and with no left or right sibling. -/
theorem claim_C4_single_chunk (enc : String → List Nat)
    (dec : List Nat → String) (tkz : String) (ids : Nat → String)
    (content : String) (maxTokens : Int)
    (hc : content ≠ "") (hN : 0 < maxTokens)
    (hfits : ((enc content).length : Int) ≤ maxTokens) :
    ChunkDocument enc dec tkz ids content maxTokens =
      .ok [{ id := ids 0
             leftChunkID := none
             rightChunkID := none
             body := some content
             byteSize := some content.utf8ByteSize
             tokenizer := some tkz
             tokenCount := some (enc content).length }] := by
  rw [ChunkDocument_eq enc dec tkz ids content maxTokens hc hN, if_pos hfits]

/-- Witness for C1 at a concrete input: content "abcd", bound 2, toy
codec. -/
theorem claim_C1_witness :
    "abcd" ≠ "" ∧ (0 : Int) < 2 ∧
    ChunkDocument testEnc testDec "cl100k_base" testIds "abcd" 2 = .ok csTwo ∧
    (∀ c ∈ csTwo, ∀ k, c.tokenCount = some k → (k : Int) ≤ 2) :=
  ⟨by decide, by decide, by decide,
   claim_C1_chunk_token_bound testEnc testDec "cl100k_base" testIds "abcd" 2 csTwo
     (by decide) (by decide) (by decide)⟩

/-- Witness for C2 at a concrete input: content "abcd", bound 2, toy
codec. -/
theorem claim_C2_witness :
    ChunkDocument testEnc testDec "cl100k_base" testIds "abcd" 2 = .ok csTwo ∧
    ((∀ i a b, csTwo.get? i = some a → csTwo.get? (i + 1) = some b →
      a.rightChunkID = some b.id ∧ b.leftChunkID = some a.id) ∧
    (∀ a, csTwo.head? = some a → a.leftChunkID = none) ∧
    (∀ a, csTwo.getLast? = some a → a.rightChunkID = none)) :=
  ⟨by decide,
   claim_C2_chunk_linkage testEnc testDec "cl100k_base" testIds "abcd" 2 csTwo
     (by decide)⟩

/-- Witness for C4 at a concrete input: content "abcd" fits in 10
tokens under the toy codec. -/
theorem claim_C4_witness :
    "abcd" ≠ "" ∧ (0 : Int) < 10 ∧ (((testEnc "abcd").length : Int) ≤ 10) ∧
    ChunkDocument testEnc testDec "cl100k_base" testIds "abcd" 10 =
      .ok [{ id := testIds 0
             leftChunkID := none
             rightChunkID := none
             body := some "abcd"
             byteSize := some ("abcd" : String).utf8ByteSize
             tokenizer := some "cl100k_base"
             tokenCount := some (testEnc "abcd").length }] :=
  ⟨by decide, by decide, by decide,
   claim_C4_single_chunk testEnc testDec "cl100k_base" testIds "abcd" 10
     (by decide) (by decide) (by decide)⟩

/-- C7: `determineSourceTypeFromSource` maps a stored Source with host
"github.com" or "api.github.com" to "github", any other present host to
"wp-json", and fails with `CannotDetermineSourceType` exactly when the
host is absent. -/
theorem claim_C7_source_type_resolution (s : Source) :
    ((s.host = some "github.com" ∨ s.host = some "api.github.com") →
      determineSourceTypeFromSource s = .ok "github") ∧
    (∀ h, s.host = some h → h ≠ "github.com" → h ≠ "api.github.com" →
      determineSourceTypeFromSource s = .ok "wp-json") ∧
    (determineSourceTypeFromSource s = .error .cannotDetermineSourceType ↔
      s.host = none) := by
  refine ⟨?_, ?_, ?_⟩
  · rintro (h | h) <;>
      simp [determineSourceTypeFromSource, h]
  · intro h hh h1 h2
    simp [determineSourceTypeFromSource, hh, h1, h2]
  · constructor
    · intro he
      cases hh : s.host with
      | none => rfl
      | some v =>
        exfalso
        rw [determineSourceTypeFromSource, hh] at he
        by_cases hv : v = "github.com" ∨ v = "api.github.com"
        · simp [hv] at he
        · simp [hv] at he
    · intro hh
      rw [determineSourceTypeFromSource, hh]

/-- Witness for C7 at concrete inputs: the four scenario rows of the
spec (github.com, api.github.com, blog.example.com, absent host). -/
theorem claim_C7_witness :
    (determineSourceTypeFromSource { host := some "github.com" } = .ok "github") ∧
    (determineSourceTypeFromSource { host := some "api.github.com" } = .ok "github") ∧
    (determineSourceTypeFromSource { host := some "blog.example.com" } = .ok "wp-json") ∧
    (determineSourceTypeFromSource { host := none, rawURL := none } =
      .error .cannotDetermineSourceType) :=
  ⟨(claim_C7_source_type_resolution { host := some "github.com" }).1 (Or.inl rfl),
   (claim_C7_source_type_resolution { host := some "api.github.com" }).1 (Or.inr rfl),
   (claim_C7_source_type_resolution { host := some "blog.example.com" }).2.1
     "blog.example.com" rfl (by decide) (by decide),
   (claim_C7_source_type_resolution { host := none, rawURL := none }).2.2.mpr rfl⟩

/-! Helper lemmas about the chunk worker pool. -/

theorem runWorkers_length (emb : EmbedderM)
    (save : Chunk → Option EmbeddingRec → Option EngineErr)
    (docID : String) (cids eids : Nat → String) :
    ∀ (l : List Chunk) (k : Nat),
      (runWorkers emb save docID cids eids k l).length = l.length := by
  intro l
  induction l with
  | nil => intro k; rfl
  | cons c rest ih =>
    intro k
    simp only [runWorkers, List.length_cons, ih (k + 1)]

theorem runWorkers_get? (emb : EmbedderM)
    (save : Chunk → Option EmbeddingRec → Option EngineErr)
    (docID : String) (cids eids : Nat → String) :
    ∀ (l : List Chunk) (k i : Nat),
      (runWorkers emb save docID cids eids k l).get? i =
        (l.get? i).map
          (fun c => chunkWorkerStep emb save docID (cids (k + i)) (eids (k + i)) c) := by
  intro l
  induction l with
  | nil => intro k i; simp [runWorkers]
  | cons c rest ih =>
    intro k i
    cases i with
    | zero => simp [runWorkers]
    | succ n =>
      simp only [runWorkers, List.get?_cons_succ, List.get?]
      rw [ih (k + 1) n]
      have : k + 1 + n = k + (n + 1) := by omega
      rw [this]

theorem runWorkers_get?_zero (emb : EmbedderM)
    (save : Chunk → Option EmbeddingRec → Option EngineErr)
    (docID : String) (cids eids : Nat → String) (l : List Chunk) (i : Nat) :
    (runWorkers emb save docID cids eids 0 l).get? i =
      (l.get? i).map
        (fun c => chunkWorkerStep emb save docID (cids i) (eids i) c) := by
  rw [runWorkers_get? emb save docID cids eids l 0 i]
  simp

theorem chunkWorkerStep_chunk (emb : EmbedderM)
    (save : Chunk → Option EmbeddingRec → Option EngineErr)
    (docID nid eid : String) (c : Chunk) :
    (chunkWorkerStep emb save docID nid eid c).chunk =
      { c with documentID := docID, id := nid } := by
  cases hb : c.body with
  | none =>
    simp only [chunkWorkerStep, hb]
    cases hs : save { c with documentID := docID, id := nid, body := none } none with
    | none => rfl
    | some e => rfl
  | some b =>
    cases hg : emb.generate b with
    | error m => simp only [chunkWorkerStep, hb, hg]
    | ok v =>
      simp only [chunkWorkerStep, hb, hg]
      split_ifs with h1 h2 h3
      · cases hs : save { c with documentID := docID, id := nid, body := some b }
          (some { id := eid, embedding768 := some v, model := some emb.modelName,
                  objectID := nid, objectType := "chunk" }) with
        | none => rfl
        | some e => rfl
      · cases hs : save { c with documentID := docID, id := nid, body := some b }
          (some { id := eid, embedding1536 := some v, model := some emb.modelName,
                  objectID := nid, objectType := "chunk" }) with
        | none => rfl
        | some e => rfl
      · cases hs : save { c with documentID := docID, id := nid, body := some b }
          (some { id := eid, embedding3072 := some v, model := some emb.modelName,
                  objectID := nid, objectType := "chunk" }) with
        | none => rfl
        | some e => rfl
      · rfl

theorem chunkWorkerStep_nilBody (emb : EmbedderM)
    (save : Chunk → Option EmbeddingRec → Option EngineErr)
    (docID nid eid : String) (c : Chunk) (hb : c.body = none) :
    (chunkWorkerStep emb save docID nid eid c).embedding = none ∧
    (chunkWorkerStep emb save docID nid eid c).error =
      save { c with documentID := docID, id := nid } none := by
  simp only [chunkWorkerStep, hb]
  cases hs : save { c with documentID := docID, id := nid, body := none } none with
  | none => exact ⟨rfl, rfl⟩
  | some e => exact ⟨rfl, rfl⟩

theorem chunkWorkerStep_unsupportedDim (emb : EmbedderM)
    (save : Chunk → Option EmbeddingRec → Option EngineErr)
    (docID nid eid : String) (c : Chunk) (b : String) (v : List Int)
    (hb : c.body = some b) (hv : emb.generate b = .ok v)
    (h768 : emb.dimension ≠ 768) (h1536 : emb.dimension ≠ 1536)
    (h3072 : emb.dimension ≠ 3072) :
    (chunkWorkerStep emb save docID nid eid c).error =
      some .unsupportedEmbeddingDim := by
  simp only [chunkWorkerStep, hb, hv, h768, h1536, h3072, if_false]

theorem processChunks_eq (emb : EmbedderM)
    (save : Chunk → Option EmbeddingRec → Option EngineErr)
    (docID : String) (cids eids : Nat → String)
    (concurrency : Int) (chunks : List Chunk)
    (hC : 1 ≤ concurrency) :
    processChunks emb save docID cids eids concurrency chunks =
      some (if 0 < ((runWorkers emb save docID cids eids 0 chunks).filterMap
              (fun r => r.error)).length
            then .error .chunkProcessingFailed else .ok ()) := by
  rw [processChunks, if_neg]
  rintro ⟨_, h⟩
  omega

theorem errorsList_pos_iff (results : List ChunkResult) :
    0 < (results.filterMap (fun r => r.error)).length ↔
      ∃ r ∈ results, r.error ≠ none := by
  rw [List.length_pos]
  constructor
  · intro hne
    rcases List.exists_mem_of_ne_nil _ hne with ⟨e, he⟩
    rcases List.mem_filterMap.mp he with ⟨r, hr, hre⟩
    exact ⟨r, hr, by rw [hre]; exact Option.noConfusion⟩
  · rintro ⟨r, hr, hre⟩
    intro hnil
    cases he : r.error with
    | none => exact hre he
    | some e =>
      have : e ∈ results.filterMap (fun r => r.error) :=
        List.mem_filterMap.mpr ⟨r, hr, he⟩
      rw [hnil] at this
      exact List.not_mem_nil e this

/-- C5: with at least one worker, `processChunks` collects exactly one
result per chunk before returning, fails with `ChunkProcessingFailed`
exactly when some per-chunk result carries an error, and a chunk whose
body is nil is handed to the store with no embedding and its result
error is exactly the store outcome (no error when the save succeeds). -/
theorem claim_C5_chunk_accounting (emb : EmbedderM)
    (save : Chunk → Option EmbeddingRec → Option EngineErr)
    (docID : String) (cids eids : Nat → String)
    (concurrency : Int) (chunks : List Chunk)
    (hC : 1 ≤ concurrency) :
    (runWorkers emb save docID cids eids 0 chunks).length = chunks.length ∧
    (∃ res, processChunks emb save docID cids eids concurrency chunks = some res) ∧
    (processChunks emb save docID cids eids concurrency chunks =
       some (.error .chunkProcessingFailed) ↔
       ∃ r ∈ runWorkers emb save docID cids eids 0 chunks, r.error ≠ none) ∧
    (∀ i c, chunks.get? i = some c → c.body = none →
      ∃ r, (runWorkers emb save docID cids eids 0 chunks).get? i = some r ∧
        r.embedding = none ∧
        r.error = save { c with documentID := docID, id := cids i } none) := by
  refine ⟨runWorkers_length emb save docID cids eids chunks 0, ?_, ?_, ?_⟩
  · rw [processChunks_eq emb save docID cids eids concurrency chunks hC]
    exact ⟨_, rfl⟩
  · rw [processChunks_eq emb save docID cids eids concurrency chunks hC]
    constructor
    · intro h
      injection h with h
      by_cases hpos :
          0 < ((runWorkers emb save docID cids eids 0 chunks).filterMap
            (fun r => r.error)).length
      · exact (errorsList_pos_iff _).mp hpos
      · rw [if_neg hpos] at h
        exact Except.noConfusion h
    · intro h
      rw [if_pos ((errorsList_pos_iff _).mpr h)]
  · intro i c hi hb
    refine ⟨chunkWorkerStep emb save docID (cids i) (eids i) c, ?_, ?_⟩
    · rw [runWorkers_get? emb save docID cids eids chunks 0 i, hi]
      simp
    · exact chunkWorkerStep_nilBody emb save docID (cids i) (eids i) c hb

/-- C6: a chunk with a non-nil body dispatched to an embedder whose
declared dimension is outside {768, 1536, 3072} yields a per-chunk
result carrying `UnsupportedEmbeddingDim`, and the whole chunk phase —
whose outcome `ProcessDocument` returns directly — fails with
`ChunkProcessingFailed`. -/
theorem claim_C6_unsupported_dim (emb : EmbedderM)
    (save : Chunk → Option EmbeddingRec → Option EngineErr)
    (docID : String) (cids eids : Nat → String)
    (concurrency : Int) (chunks : List Chunk)
    (i : Nat) (c : Chunk) (b : String) (v : List Int)
    (hC : 1 ≤ concurrency)
    (hi : chunks.get? i = some c)
    (hb : c.body = some b) (hv : emb.generate b = .ok v)
    (h768 : emb.dimension ≠ 768) (h1536 : emb.dimension ≠ 1536)
    (h3072 : emb.dimension ≠ 3072) :
    (∃ r, (runWorkers emb save docID cids eids 0 chunks).get? i = some r ∧
      r.error = some .unsupportedEmbeddingDim) ∧
    processChunks emb save docID cids eids concurrency chunks =
      some (.error .chunkProcessingFailed) := by
  have hget : (runWorkers emb save docID cids eids 0 chunks).get? i =
      some (chunkWorkerStep emb save docID (cids i) (eids i) c) := by
    rw [runWorkers_get? emb save docID cids eids chunks 0 i, hi]
    simp
  have herr := chunkWorkerStep_unsupportedDim emb save docID (cids i) (eids i)
    c b v hb hv h768 h1536 h3072
  refine ⟨⟨_, hget, herr⟩, ?_⟩
  rw [processChunks_eq emb save docID cids eids concurrency chunks hC]
  rw [if_pos]
  apply (errorsList_pos_iff _).mpr
  refine ⟨chunkWorkerStep emb save docID (cids i) (eids i) c, ?_, ?_⟩
  · exact List.get?_mem hget
  · rw [herr]; exact Option.noConfusion

/-- Witness for C5 at a concrete input: two chunks (one nil body),
concurrency 2, always-succeeding store. -/
theorem claim_C5_witness :
    (1 : Int) ≤ 2 ∧
    ((runWorkers embOk saveOk "doc" testIds testIds 0 csC5).length = csC5.length ∧
     (∃ res, processChunks embOk saveOk "doc" testIds testIds 2 csC5 = some res) ∧
     (processChunks embOk saveOk "doc" testIds testIds 2 csC5 =
        some (.error .chunkProcessingFailed) ↔
        ∃ r ∈ runWorkers embOk saveOk "doc" testIds testIds 0 csC5, r.error ≠ none) ∧
     (∀ i c, csC5.get? i = some c → c.body = none →
       ∃ r, (runWorkers embOk saveOk "doc" testIds testIds 0 csC5).get? i = some r ∧
         r.embedding = none ∧
         r.error = saveOk { c with documentID := "doc", id := testIds i } none)) :=
  ⟨by decide,
   claim_C5_chunk_accounting embOk saveOk "doc" testIds testIds 2 csC5 (by decide)⟩

/-- Witness for C6 at a concrete input: one chunk with body "x"
dispatched to the dimension-999 embedder. -/
theorem claim_C6_witness :
    (1 : Int) ≤ 1 ∧ csC6.get? 0 = some { id := "a", body := some "x" } ∧
    ({ id := "a", body := some "x" } : Chunk).body = some "x" ∧
    emb999.generate "x" = .ok [1] ∧
    emb999.dimension ≠ 768 ∧ emb999.dimension ≠ 1536 ∧ emb999.dimension ≠ 3072 ∧
    ((∃ r, (runWorkers emb999 saveOk "doc" testIds testIds 0 csC6).get? 0 = some r ∧
       r.error = some .unsupportedEmbeddingDim) ∧
     processChunks emb999 saveOk "doc" testIds testIds 1 csC6 =
       some (.error .chunkProcessingFailed)) :=
  ⟨by decide, by decide, by decide, by decide, by decide, by decide, by decide,
   claim_C6_unsupported_dim emb999 saveOk "doc" testIds testIds 1 csC6 0
     { id := "a", body := some "x" } "x" [1]
     (by decide) (by decide) (by decide) (by decide) (by decide) (by decide) (by decide)⟩

/-- Every chunk produced by `ChunkDocument` with identifier supply `ids`
only references sibling identifiers drawn from indices below the chunk
count. -/
theorem chunkDocument_idRefs (enc : String → List Nat) (dec : List Nat → String)
    (tkz : String) (ids : Nat → String) (content : String) (maxTokens : Int)
    (cs : List Chunk)
    (hok : ChunkDocument enc dec tkz ids content maxTokens = .ok cs) :
    ∀ c ∈ cs, idRefsBelow ids cs.length c := by
  obtain ⟨hc, hN⟩ := ChunkDocument_ok_guards enc dec tkz ids content maxTokens cs hok
  rw [ChunkDocument_eq enc dec tkz ids content maxTokens hc hN] at hok
  by_cases hfits : ((enc content).length : Int) ≤ maxTokens
  · rw [if_pos hfits] at hok
    injection hok with h
    rw [← h]
    intro c hcm
    have hcc : c = _ := List.mem_singleton.mp hcm
    rw [hcc]
    exact ⟨Or.inl rfl, Or.inl rfl⟩
  · rw [if_neg hfits] at hok
    injection hok with h
    rw [← h]
    exact chunkDocLoop_idRefs dec ids (maxTokens.toNat - 1)
      (enc content).length (enc content) le_rfl 0 [] none rfl
      (fun c hc' => absurd hc' (List.not_mem_nil c)) (Or.inl rfl)

/-- C3: each dispatched chunk has its id overwritten with a freshly
generated identifier (and its document id set) before persisting, while
its left and right sibling pointers keep the identifiers the chunker
assigned; consequently no persisted left or right pointer equals the
persisted id of any chunk written in the same `ProcessDocument` call.
The single supply `ids` models `uuid.New()`: injectivity captures
freshness, and the workers draw from indices at or above `b`, past the
`cs.length` indices the chunker consumed. -/
theorem claim_C3_fresh_worker_ids (enc : String → List Nat)
    (dec : List Nat → String) (tkz : String) (ids : Nat → String)
    (emb : EmbedderM) (save : Chunk → Option EmbeddingRec → Option EngineErr)
    (docID : String) (eids : Nat → String)
    (content : String) (maxTokens : Int) (cs : List Chunk) (b : Nat)
    (hinj : Function.Injective ids)
    (hok : ChunkDocument enc dec tkz ids content maxTokens = .ok cs)
    (hb : cs.length ≤ b) :
    (∀ i c, cs.get? i = some c →
      ∃ r, (runWorkers emb save docID (fun k => ids (b + k)) eids 0 cs).get? i = some r ∧
        r.chunk.id = ids (b + i) ∧ r.chunk.documentID = docID ∧
        r.chunk.leftChunkID = c.leftChunkID ∧
        r.chunk.rightChunkID = c.rightChunkID) ∧
    (∀ r ∈ runWorkers emb save docID (fun k => ids (b + k)) eids 0 cs,
      ∀ r' ∈ runWorkers emb save docID (fun k => ids (b + k)) eids 0 cs,
        r.chunk.leftChunkID ≠ some r'.chunk.id ∧
        r.chunk.rightChunkID ≠ some r'.chunk.id) := by
  have hrefs := chunkDocument_idRefs enc dec tkz ids content maxTokens cs hok
  have hstep : ∀ i c, cs.get? i = some c →
      (runWorkers emb save docID (fun k => ids (b + k)) eids 0 cs).get? i =
        some (chunkWorkerStep emb save docID (ids (b + i)) (eids i) c) := by
    intro i c hi
    rw [runWorkers_get? emb save docID (fun k => ids (b + k)) eids cs 0 i, hi]
    simp
  constructor
  · intro i c hi
    refine ⟨chunkWorkerStep emb save docID (ids (b + i)) (eids i) c, hstep i c hi, ?_⟩
    rw [chunkWorkerStep_chunk]
    exact ⟨rfl, rfl, rfl, rfl⟩
  · intro r hr r' hr'
    obtain ⟨i, hi⟩ := List.mem_iff_get?.mp hr
    obtain ⟨i', hi'⟩ := List.mem_iff_get?.mp hr'
    have hlen := runWorkers_length emb save docID (fun k => ids (b + k)) eids cs 0
    -- identify the chunks the two results came from
    have hi0 : cs.get? i ≠ none := by
      intro hnone
      rw [runWorkers_get?_zero emb save docID (fun k => ids (b + k)) eids cs i,
        hnone] at hi
      exact Option.noConfusion hi
    have hi0' : cs.get? i' ≠ none := by
      intro hnone
      rw [runWorkers_get?_zero emb save docID (fun k => ids (b + k)) eids cs i',
        hnone] at hi'
      exact Option.noConfusion hi'
    obtain ⟨c, hci⟩ := Option.ne_none_iff_exists'.mp hi0
    obtain ⟨c', hci'⟩ := Option.ne_none_iff_exists'.mp hi0'
    rw [runWorkers_get?_zero emb save docID (fun k => ids (b + k)) eids cs i,
      hci] at hi
    rw [runWorkers_get?_zero emb save docID (fun k => ids (b + k)) eids cs i',
      hci'] at hi'
    have hi2 : some (chunkWorkerStep emb save docID (ids (b + i)) (eids i) c) =
        some r := hi
    have hi2' : some (chunkWorkerStep emb save docID (ids (b + i')) (eids i') c') =
        some r' := hi'
    injection hi2 with hi2
    injection hi2' with hi2'
    rw [← hi2, ← hi2', chunkWorkerStep_chunk, chunkWorkerStep_chunk]
    have hilt' : i' < cs.length := (List.get?_eq_some.mp hci').1
    have hmem : c ∈ cs := List.get?_mem hci
    obtain ⟨hL, hR⟩ := hrefs c hmem
    constructor
    · -- left pointer never hits a fresh id
      show c.leftChunkID ≠ some (ids (b + i'))
      rcases hL with h | ⟨j, hj, h⟩
      · rw [h]
        exact Option.noConfusion
      · rw [h]
        intro he
        injection he with he
        have := hinj he
        omega
    · show c.rightChunkID ≠ some (ids (b + i'))
      rcases hR with h | ⟨j, hj, h⟩
      · rw [h]
        exact Option.noConfusion
      · rw [h]
        intro he
        injection he with he
        have := hinj he
        omega

theorem repIds_injective : Function.Injective repIds := by
  intro a b h
  have hd : List.replicate (a + 1) 'i' = List.replicate (b + 1) 'i' :=
    congrArg String.data h
  have := congrArg List.length hd
  simpa using this

/-- Witness for C3 at a concrete input: the two-chunk "abcd" split with
the injective `repIds` supply, workers drawing from index 2 upward. -/
theorem claim_C3_witness :
    Function.Injective repIds ∧
    ChunkDocument testEnc testDec "cl100k_base" repIds "abcd" 2 = .ok csRep ∧
    csRep.length ≤ 2 ∧
    ((∀ i c, csRep.get? i = some c →
      ∃ r, (runWorkers embOk saveOk "doc" (fun k => repIds (2 + k)) testIds 0 csRep).get? i = some r ∧
        r.chunk.id = repIds (2 + i) ∧ r.chunk.documentID = "doc" ∧
        r.chunk.leftChunkID = c.leftChunkID ∧
        r.chunk.rightChunkID = c.rightChunkID) ∧
    (∀ r ∈ runWorkers embOk saveOk "doc" (fun k => repIds (2 + k)) testIds 0 csRep,
      ∀ r' ∈ runWorkers embOk saveOk "doc" (fun k => repIds (2 + k)) testIds 0 csRep,
        r.chunk.leftChunkID ≠ some r'.chunk.id ∧
        r.chunk.rightChunkID ≠ some r'.chunk.id)) :=
  ⟨repIds_injective, by decide, by decide,
   claim_C3_fresh_worker_ids testEnc testDec "cl100k_base" repIds embOk saveOk
     "doc" testIds "abcd" 2 csRep 2 repIds_injective (by decide) (by decide)⟩

/-- C8 counterexample: with pages 1 and 2 delivering posts 1-4 and page
3 answering HTTP 500, `getPostIDs` does not fail: it returns a nil id
slice together with a nil error (the `return nil, err` in the non-OK
branch returns the local `err`, which is nil there), discarding the ids
already collected.  The claim asserts this input makes `getPostIDs`
fail with an error. -/
theorem claim_C8_counterexample : getPostIDs c8Pages = .ok [] := by decide

/-- C8 amended: a 400 page terminates enumeration normally with the ids
collected so far; an empty OK page terminates normally likewise; a page
with any other non-OK status terminates `getPostIDs` with a nil id list
and a nil error, discarding collected ids — and `Import`, receiving no
ids, then fails with `NoPostsImported`. -/
theorem claim_C8_amended_termination (pages : Nat → WPPage)
    (post : Int → WPImportResult) (fuel page : Nat) (acc : List Int) :
    ((pages page).status = 400 →
      getPostIDsLoop pages (fuel + 1) page acc = .ok acc) ∧
    ((pages page).status = 200 → (pages page).body = .ok [] →
      getPostIDsLoop pages (fuel + 1) page acc = .ok acc) ∧
    ((pages page).status ≠ 400 → (pages page).status ≠ 200 →
      getPostIDsLoop pages (fuel + 1) page acc = .ok []) ∧
    (getPostIDs pages = .ok [] →
      wpImport pages post = (none, some .noPostsImported)) := by
  refine ⟨?_, ?_, ?_, ?_⟩
  · intro h400
    simp [getPostIDsLoop, h400]
  · intro h200 hbody
    simp [getPostIDsLoop, h200, hbody]
  · intro h400 h200
    simp [getPostIDsLoop, h400, h200]
  · intro h
    simp [wpImport, h, wpImportFinish, collectWP]

/-- Witness for the amended C8 at concrete inputs: the three
termination branches at pages 1, 2 and 3 of `c8WitnessPages`, and the
`NoPostsImported` outcome on `c8Pages`. -/
theorem claim_C8_witness :
    (getPostIDsLoop c8WitnessPages 5 1 [7] = .ok [7]) ∧
    (getPostIDsLoop c8WitnessPages 5 2 [7] = .ok [7]) ∧
    (getPostIDsLoop c8WitnessPages 5 3 [7] = .ok []) ∧
    (wpImport c8Pages wpPostStub = (none, some .noPostsImported)) :=
  ⟨(claim_C8_amended_termination c8WitnessPages wpPostStub 4 1 [7]).1 (by decide),
   (claim_C8_amended_termination c8WitnessPages wpPostStub 4 2 [7]).2.1
     (by decide) (by decide),
   (claim_C8_amended_termination c8WitnessPages wpPostStub 4 3 [7]).2.2.1
     (by decide) (by decide),
   (claim_C8_amended_termination c8Pages wpPostStub 0 0 []).2.2.2 (by decide)⟩

/-- C9: evaluation at the failing input.  With one attempted file whose
`importFile` call fails, the tail of `GitHubImporter.Import` returns a
nil result together with a nil error — the `return nil, err` in the
no-success branch returns the outer `err`, provably nil on that path —
instead of the `NoFilesImported` error the claim (and the error
variable's own message) calls for. -/
theorem claim_C9_all_failed_returns_nil :
    ghImportFinish [.error (.fileImportFailed "boom")] = (none, none) ∧
    ghImportFinish [] = (none, some .noFilesImported) := by decide

theorem foldl_count_eq_filter_length (s : String) :
    ∀ (l : List String) (n : Nat),
      l.foldl (fun n ind => if strContainsSub s ind then n + 1 else n) n =
        n + (l.filter (fun ind => strContainsSub s ind)).length := by
  intro l
  induction l with
  | nil => intro n; simp
  | cons x xs ih =>
    intro n
    by_cases hx : strContainsSub s x
    · simp only [List.foldl_cons, List.filter_cons, hx, if_true, ih (n + 1)]
      simp
      omega
    · simp only [List.foldl_cons, List.filter_cons, hx, if_false]
      exact ih n

/-- C10 counterexample: the content "un x une x sans x" contains the
source indicators "un ", "une " and "sans " — none of which are in the
17-indicator set the claim enumerates — so the code reports "fr" where
the claim prescribes "en". -/
theorem claim_C10_counterexample :
    detectNaturalLanguage "un x une x sans x" = "fr" ∧
    specDetectNaturalLanguage "un x une x sans x" = "en" := by decide

/-- C10 amended: detection lower-cases the content and counts, with
multiplicity, the entries of the source's 27-entry indicator list
(adding `un `, `une `, `ou `, `mais `, `donc `, `car `, `ni `, `quoi `,
`dont `, `sans ` to the claimed set, with `des ` listed — and counted —
twice) that occur in it, reporting "fr" exactly when the count reaches
3; the wp-json transformer's `detectLanguage` behaves identically. -/
theorem claim_C10_amended_detection (content : String) :
    detectNaturalLanguage content =
      (if 3 ≤ frenchIndicatorCount content then "fr" else "en") ∧
    detectLanguage content = detectNaturalLanguage content ∧
    (detectNaturalLanguage content = "fr" ↔ 3 ≤ frenchIndicatorCount content) := by
  have hdet : detectNaturalLanguage content =
      (if 3 ≤ frenchIndicatorCount content then "fr" else "en") := by
    simp only [detectNaturalLanguage, frenchIndicatorCount,
      foldl_count_eq_filter_length (toLowerStr content) frenchIndicators 0,
      Nat.zero_add]
  refine ⟨hdet, rfl, ?_⟩
  rw [hdet]
  by_cases h : 3 ≤ frenchIndicatorCount content
  · simp [h]
  · simp only [h, if_false]
    constructor
    · intro he
      exact absurd he (by decide)
    · intro hc
      exact hc.elim

/-- Witness for the amended C10 at a concrete input. -/
theorem claim_C10_witness :
    detectNaturalLanguage "un x une x sans x" =
      (if 3 ≤ frenchIndicatorCount "un x une x sans x" then "fr" else "en") ∧
    detectLanguage "un x une x sans x" = detectNaturalLanguage "un x une x sans x" ∧
    (detectNaturalLanguage "un x une x sans x" = "fr" ↔
      3 ≤ frenchIndicatorCount "un x une x sans x") :=
  claim_C10_amended_detection "un x une x sans x"

end IkeGo
